import Mathlib

/-!
Shallow embedding of the post-aggregation and feed pipeline of `src/app/posts.ts`
(functions `getPosts` and `generateFeed`), together with models of the external
collaborators that the file calls into: the `gray-matter` front-matter parser,
the platform `Date.parse` primitive, `Array.prototype.sort`, and the `feed`
package's `Feed` class.  Filesystem access (`readdir`, `readFile`) is modelled
by an explicit filesystem value.  All definitions are executable.
-/

namespace Blog

/-! ### Character-level string utilities (kernel-reducible replacements for the
platform string primitives used by the models below) -/

/-- Whitespace test used for trimming, covering the whitespace that occurs
around YAML keys and values. -/
def wsChar (c : Char) : Bool := c = ' ' || c = '\t' || c = '\r'

/-- Trim whitespace from both ends of a character list. -/
def trimChars (l : List Char) : List Char :=
  ((l.dropWhile wsChar).reverse.dropWhile wsChar).reverse

/-- Split a character list on a separator character; the accumulator holds the
current segment reversed. -/
def splitCharAux (sep : Char) (acc : List Char) : List Char → List (List Char)
  | [] => [acc.reverse]
  | c :: cs =>
    if c = sep then acc.reverse :: splitCharAux sep [] cs
    else splitCharAux sep (c :: acc) cs

/-- The lines of a string (split on the newline character). -/
def linesOf (s : String) : List (List Char) := splitCharAux '\n' [] s.data

/-- Rejoin lines with newline characters (inverse of `linesOf` on its image). -/
def joinLines : List (List Char) → List Char
  | [] => []
  | [l] => l
  | l :: ls => l ++ '\n' :: joinLines ls

/-- Rejoin colon-separated segments (used when a YAML value itself holds a
colon). -/
def joinColon : List (List Char) → List Char
  | [] => []
  | [l] => l
  | l :: ls => l ++ ':' :: joinColon ls

/-- Single or double quote, written by code point to keep the file free of
quote literals. -/
def isQuoteChar (c : Char) : Bool := c = Char.ofNat 39 || c = Char.ofNat 34

/-- Strip one layer of matching surrounding quotes from a YAML scalar, as the
YAML loader underlying gray-matter does for quoted scalars. -/
def stripQuotes (l : List Char) : List Char :=
  match l.head?, l.getLast? with
  | some a, some b =>
    if 2 ≤ l.length && isQuoteChar a && a == b then (l.drop 1).dropLast else l
  | _, _ => l

/-! ### Model of the gray-matter front-matter parser -/

/-- A parsed front-matter mapping / assembled JavaScript object: a list of
key-value bindings in which a later binding overrides an earlier one, exactly
as later property assignments override earlier ones in a JavaScript object
literal with spread. -/
abbrev Obj := List (String × String)

/-- Property lookup on an `Obj`: the last binding of the key wins, matching
JavaScript object-literal semantics where `\x7b slug, ...data \x7d` lets a key
of `data` override the earlier `slug` property. -/
def objGet : Obj → String → Option String
  | [], _ => none
  | (k, v) :: rest, key =>
    match objGet rest key with
    | some w => some w
    | none => if k = key then some v else none

/-- The record built for one post by `dirs.map((slug, i) => ... \x7b slug, ...data \x7d)`
in `getPosts`: the directory name bound to `slug`, followed by the parsed
front-matter bindings, which are spread after it. -/
def mkPost (slug : String) (data : Obj) : Obj := ("slug", slug) :: data

/-- Comment test: a line whose first non-blank character is the hash sign
(code point 35), which the YAML loader ignores. -/
def isCommentLine (l : List Char) : Bool :=
  match trimChars l with
  | c :: _ => c = Char.ofNat 35
  | [] => false

/-- Parse one `key: value` front-matter line.  A blank line or a YAML comment
line is skipped; a line without a colon is a YAML error. -/
def parseLine (line : List Char) : Except String (Option (String × String)) :=
  if trimChars line = [] then Except.ok none
  else if isCommentLine line then Except.ok none
  else
    match splitCharAux ':' [] line with
    | [] => Except.error ("YAMLException: cannot parse line " ++ String.mk line)
    | [_] => Except.error ("YAMLException: cannot parse line " ++ String.mk line)
    | key :: rest =>
      Except.ok (some (String.mk (trimChars key),
        String.mk (stripQuotes (trimChars (joinColon rest)))))

/-- Parse the lines of a front-matter block into a mapping.  A repeated key is
an error, as the YAML loader underlying gray-matter throws on duplicated
mapping keys. -/
def parseFM : List (List Char) → Except String Obj
  | [] => Except.ok []
  | l :: ls =>
    match parseLine l with
    | Except.error e => Except.error e
    | Except.ok none => parseFM ls
    | Except.ok (some kv) =>
      match parseFM ls with
      | Except.error e => Except.error e
      | Except.ok rest =>
        if rest.any (fun kv2 => kv2.1 == kv.1) then
          Except.error ("YAMLException: duplicated mapping key " ++ kv.1)
        else Except.ok (kv :: rest)

/-- The front-matter delimiter line. -/
def dashes : List Char := ['-', '-', '-']

/-- Split a line list at the closing front-matter delimiter, if present. -/
def splitAtDelim : List (List Char) → Option (List (List Char) × List (List Char))
  | [] => none
  | l :: ls =>
    if l = dashes then some ([], ls)
    else
      match splitAtDelim ls with
      | some p => some (l :: p.1, p.2)
      | none => none

/-- Models the `gray-matter` front-matter parser called by `getPosts`: a
document beginning with a `---` delimiter line has the `key: value` lines up to
the closing delimiter parsed into a mapping, with the remainder as body; when
the closing delimiter is missing gray-matter takes everything after the opening
delimiter as front matter and leaves an empty body; a document with no
front-matter block yields an empty mapping and the whole input as body; a
malformed block (bad line syntax, duplicated key) is an error, which
gray-matter raises as a thrown exception. -/
def matter (content : String) : Except String (Obj × String) :=
  match linesOf content with
  | [] => Except.ok ([], content)
  | first :: rest =>
    if first = dashes then
      match splitAtDelim rest with
      | some p =>
        match parseFM p.1 with
        | Except.error e => Except.error e
        | Except.ok data => Except.ok (data, String.mk (joinLines p.2))
      | none =>
        match parseFM rest with
        | Except.error e => Except.error e
        | Except.ok data => Except.ok (data, "")
    else Except.ok ([], content)

/-! ### Model of the platform date primitives -/

/-- Digits of a decimal numeral to a natural number. -/
def digitsToNat (l : List Char) : Nat := l.foldl (fun n c => n * 10 + (c.toNat - 48)) 0

/-- Gregorian leap-year rule, as the platform date parser applies it when
validating `YYYY-02-29`. -/
def isLeapYear (y : Nat) : Bool := (y % 4 = 0 && y % 100 != 0) || y % 400 = 0

/-- Days in a month of a given year, used by the platform date parser to
reject impossible calendar days such as `2024-02-31` or `2023-02-29`. -/
def daysInMonth (y m : Nat) : Nat :=
  if m = 2 then (if isLeapYear y then 29 else 28)
  else if m = 4 || m = 6 || m = 9 || m = 11 then 30
  else 31

/-- Models the platform `Date.parse` primitive on the calendar-date strings
this blog uses (ISO `YYYY-MM-DD`): a calendar-valid date string (month 01-12,
day within the month, leap years respected, as V8 validates date-only ISO
strings) is mapped to an order-preserving integer encoding of its calendar
date, and any other string yields `none`, the model of the `NaN` time value
`Date.parse` returns for unparseable input.  The platform also accepts other
date-time formats; those are outside this model's scope and map to `none`,
which only narrows the set of model-parseable dates. -/
def dateParse (s : String) : Option Int :=
  match splitCharAux '-' [] s.data with
  | [y, m, d] =>
    if y.length = 4 && m.length = 2 && d.length = 2 &&
        y.all Char.isDigit && m.all Char.isDigit && d.all Char.isDigit then
      if 1 ≤ digitsToNat m && digitsToNat m ≤ 12 &&
          1 ≤ digitsToNat d && digitsToNat d ≤ daysInMonth (digitsToNat y) (digitsToNat m) then
        some (Int.ofNat (digitsToNat y * 10000 + digitsToNat m * 100 + digitsToNat d))
      else none
    else none
  | _ => none

/-- The time value `Date.parse(post.date)` computed by the sort comparator in
`getPosts`: an absent `date` property is `undefined`, which `Date.parse` also
turns into `NaN` (modelled as `none`). -/
def dparse (p : Obj) : Option Int :=
  match objGet p "date" with
  | some s => dateParse s
  | none => none

/-- The JavaScript `<` comparison on two time values: any comparison involving
`NaN` is false. -/
def jsLt : Option Int → Option Int → Bool
  | some x, some y => decide (x < y)
  | _, _ => false

/-- The sort comparator of `getPosts`, line for line:
`Date.parse(a.date) < Date.parse(b.date) ? 1 : -1`. -/
def postCmp (a b : Obj) : Int := if jsLt (dparse a) (dparse b) then 1 else -1

/-! ### Model of Array.prototype.sort (Node/V8 TimSort on short arrays)

Node runs this code on V8, whose `Array.prototype.sort` is TimSort.  For an
array of fewer than 64 elements the computed minimal run length equals the
array length, so the merge machinery is never reached and the algorithm is
exactly: detect the maximal initial run (`countRunAndMakeAscending`),
reversing it in place when it is strictly descending under the comparator,
then binary-insert each remaining element into the growing sorted prefix
(`BinaryInsertionSort`).  The definitions below model that algorithm step for
step; every content root in this development (and the repository's own content
set of 7 posts) is far below the 64-element bound, so on these inputs the
model coincides with the platform sort.  With the inconsistent comparator
`getPosts` passes, ECMAScript leaves the order implementation-defined, which
is why the platform algorithm itself is modelled rather than an idealised
sort. -/

/-- Continuation of a strictly descending run: V8 extends the run while
`comparefn(current, previous) < 0`, and breaks at the first non-negative
comparison.  Returns the taken run continuation and the remaining elements. -/
def takeDescRun (cmp : Obj → Obj → Int) (prev : Obj) : List Obj → List Obj × List Obj
  | [] => ([], [])
  | x :: xs =>
    if cmp x prev < 0 then
      ((x :: (takeDescRun cmp x xs).1), (takeDescRun cmp x xs).2)
    else ([], x :: xs)

/-- Continuation of an ascending run: V8 extends the run while
`comparefn(current, previous) >= 0`, and breaks at the first negative
comparison. -/
def takeAscRun (cmp : Obj → Obj → Int) (prev : Obj) : List Obj → List Obj × List Obj
  | [] => ([], [])
  | x :: xs =>
    if cmp x prev < 0 then ([], x :: xs)
    else ((x :: (takeAscRun cmp x xs).1), (takeAscRun cmp x xs).2)

/-- V8's `countRunAndMakeAscending`: the run is descending iff the comparison
of the second element against the first is negative; a descending run is
reversed in place.  Returns the (now ascending-per-comparator) run and the
remaining elements. -/
def makeRun (cmp : Obj → Obj → Int) : List Obj → List Obj × List Obj
  | [] => ([], [])
  | [x] => ([x], [])
  | a :: b :: rest =>
    if cmp b a < 0 then
      (((a :: b :: (takeDescRun cmp b rest).1).reverse), (takeDescRun cmp b rest).2)
    else ((a :: b :: (takeAscRun cmp b rest).1), (takeAscRun cmp b rest).2)

/-- V8's binary search for the insertion position of `pivot` in the sorted
prefix `l`: while `left < right`, probe `mid = left + (right - left) / 2` and
move `right` down to `mid` when `comparefn(pivot, l[mid]) < 0`, else move
`left` past `mid`.  The first argument is fuel, at least the interval width,
so the recursion is structural; the out-of-range default of `getD` is never
read while `right` is bounded by the list length. -/
def binSearchGo (cmp : Obj → Obj → Int) (pivot : Obj) (l : List Obj) :
    Nat → Nat → Nat → Nat
  | 0, left, _ => left
  | fuel + 1, left, right =>
    if left < right then
      if cmp pivot (l.getD (left + (right - left) / 2) pivot) < 0 then
        binSearchGo cmp pivot l fuel left (left + (right - left) / 2)
      else binSearchGo cmp pivot l fuel (left + (right - left) / 2 + 1) right
    else left

/-- One step of V8's `BinaryInsertionSort`: find the pivot's position in the
sorted prefix by binary search and splice it in there. -/
def binInsert (cmp : Obj → Obj → Int) (sorted : List Obj) (pivot : Obj) : List Obj :=
  sorted.take (binSearchGo cmp pivot sorted sorted.length 0 sorted.length) ++
    pivot :: sorted.drop (binSearchGo cmp pivot sorted sorted.length 0 sorted.length)

/-- Models `Array.prototype.sort(comparefn)` as Node/V8's TimSort computes it
for arrays of fewer than 64 elements: make the initial run ascending per the
comparator (reversing a strictly descending one), then binary-insert the rest
one element at a time. -/
def jsSort (cmp : Obj → Obj → Int) (l : List Obj) : List Obj :=
  (makeRun cmp l).2.foldl (binInsert cmp) (makeRun cmp l).1

/-! ### Filesystem model and getPosts -/

/-- One entry of `readdir('./public/', \x7b withFileTypes: true \x7d)`: a name plus
the result of `isDirectory()`. -/
structure DirEnt where
  name : String
  isDir : Bool
deriving DecidableEq

/-- The filesystem as `getPosts` sees it: the entry list of `./public/` in
readdir order, and for each directory name the contents of
`./public/<dir>/index.md`, with `none` when `readFile` would reject
(file missing). -/
structure FS where
  entries : List DirEnt
  files : String → Option String

/-- The directory names kept by `getPosts`:
`entries.filter((entry) => entry.isDirectory()).map((entry) => entry.name)`. -/
def dirsOf (fs : FS) : List String :=
  (fs.entries.filter (fun e => e.isDir)).map (fun e => e.name)

/-- Effectful map with fail-fast error propagation, the model of both
`Promise.all` over fallible reads and a synchronous `.map` whose body can
throw. -/
def mapE (f : α → Except String β) : List α → Except String (List β)
  | [] => Except.ok []
  | a :: l =>
    match f a with
    | Except.error e => Except.error e
    | Except.ok b =>
      match mapE f l with
      | Except.error e => Except.error e
      | Except.ok bs => Except.ok (b :: bs)

/-- `Promise.all(dirs.map((dir) => readFile(...)))`: every file must be read
successfully or the whole operation rejects. -/
def readAll (fs : FS) (dirs : List String) : Except String (List String) :=
  mapE (fun dir =>
    match fs.files dir with
    | some c => Except.ok c
    | none => Except.error ("ENOENT: no such file ./public/" ++ dir ++ "/index.md")) dirs

/-- `dirs.map((slug, i) => ...)`: parse each file's front matter and build the
post record; a gray-matter exception aborts the whole map. -/
def assemble (slugs : List String) (contents : List String) : Except String (List Obj) :=
  mapE (fun sc =>
    match matter sc.2 with
    | Except.error e => Except.error e
    | Except.ok r => Except.ok (mkPost sc.1 r.1)) (slugs.zip contents)

/-- The embedding of `getPosts` from `src/app/posts.ts`: list the directories
of `./public/`, read every `index.md` (rejecting as a whole if any is missing),
parse front matter and assemble one record per directory, then sort with the
comparator above and return the sorted list. -/
def getPosts (fs : FS) : Except String (List Obj) :=
  match readAll fs (dirsOf fs) with
  | Except.error e => Except.error e
  | Except.ok fileContents =>
    match assemble (dirsOf fs) fileContents with
    | Except.error e => Except.error e
    | Except.ok posts => Except.ok (jsSort postCmp posts)

/-! ### Model of the feed package and generateFeed -/

/-- The `author` object of the feed options. -/
structure Author where
  name : String
  email : String
  link : String
deriving DecidableEq

/-- The `feedLinks` object of the feed options. -/
structure FeedLinks where
  atom : String
  rss : String
deriving DecidableEq

/-- The `feedOptions` object literal built in `generateFeed`, field for field. -/
structure FeedOptions where
  author : Author
  description : String
  favicon : String
  feedLinks : FeedLinks
  generator : String
  id : String
  image : String
  link : String
  title : String
deriving DecidableEq

/-- One feed entry, with the fields `generateFeed` passes to `feed.addItem`:
the `date` field models the time value of `new Date(post.date)` (with `none`
for an Invalid Date), and `description` and `title` are the looked-up object
properties, possibly `undefined`. -/
structure FeedItem where
  date : Option Int
  description : Option String
  id : String
  link : String
  title : Option String
deriving DecidableEq

/-- Models the `Feed` class of the `feed` package as used by `generateFeed`:
the constructor stores the options and starts with an empty item list, and
`addItem` appends one item.  Neither reads the ambient clock (the package
consults the clock only when rendering a document, which `generateFeed` does
not do), so the constructor model receives and ignores the clock value. -/
structure Feed where
  options : FeedOptions
  items : List FeedItem
deriving DecidableEq

/-- The `new Feed(feedOptions)` constructor: stores the options, empty items;
`now` is the ambient clock at construction time, which the constructor does not
read. -/
def feedNew (now : Int) (options : FeedOptions) : Feed :=
  let _ := now
  { options := options, items := [] }

/-- `feed.addItem(item)`: appends the item. -/
def Feed.addItem (f : Feed) (item : FeedItem) : Feed :=
  { f with items := f.items ++ [item] }

/-- The `metadata` constant of `src/app/posts.ts` (the fields the feed uses). -/
structure SiteMetadata where
  title : String
  description : String
deriving DecidableEq

/-- The exported `metadata` object of `src/app/posts.ts`. -/
def metadata : SiteMetadata :=
  { title := "refactored — A blog by Sulhadin Öney"
  , description := "A blog by Sulhadin Öney" }

/-- The `site_url` constant of `generateFeed`. -/
def site_url : String := "https://sulhadin.com/"

/-- The `feedOptions` value of `generateFeed`, field for field (note the
doubled slash in `favicon`, which the source's template literal produces). -/
def feedOptions : FeedOptions :=
  { author :=
      { name := "Sulhadin Öney"
      , email := "sulhadin@gmail.com"
      , link := site_url }
  , description := metadata.description
  , favicon := site_url ++ "/icon.png"
  , feedLinks := { atom := site_url ++ "atom.xml", rss := site_url ++ "rss.xml" }
  , generator := "Feed for Node.js"
  , id := site_url
  , image := "https://github.com/sulhadin.png"
  , link := site_url
  , title := metadata.title }

/-- The `slug` property read by the template literal of `generateFeed`; an
absent property is `undefined`, which a template literal renders as the string
`undefined`. -/
def slugStr (p : Obj) : String := (objGet p "slug").getD "undefined"

/-- The item object passed to `feed.addItem` for one post, field for field. -/
def mkItem (post : Obj) : FeedItem :=
  { date := dparse post
  , description := objGet post "spoiler"
  , id := site_url ++ slugStr post ++ "/"
  , link := site_url ++ slugStr post ++ "/"
  , title := objGet post "title" }

/-- The embedding of `generateFeed` from `src/app/posts.ts`: get the posts,
build the feed object from the options, and add one item per post in list
order.  `now` is the ambient clock during the run, passed to the one collaborator
that could observe it. -/
def generateFeed (now : Int) (fs : FS) : Except String Feed :=
  match getPosts fs with
  | Except.error e => Except.error e
  | Except.ok posts =>
    Except.ok (posts.foldl (fun f post => f.addItem (mkItem post)) (feedNew now feedOptions))

/-! ### Concrete filesystems used to instantiate the theorems -/

/-- A well-formed post file dated January 2024. -/
def wfileA : String := "---\ntitle: Alpha\ndate: 2024-01-01\nspoiler: A\n---\nHello"

/-- A well-formed post file dated June 2024. -/
def wfileB : String := "---\ntitle: Beta\ndate: 2024-06-01\nspoiler: B\n---\nWorld"

/-- A content root with two valid post directories and one plain file. -/
def wfs : FS :=
  { entries := [⟨"alpha", true⟩, ⟨"beta", true⟩, ⟨"notes.txt", false⟩]
  , files := fun d =>
      if d = "alpha" then some wfileA
      else if d = "beta" then some wfileB
      else none }

/-- The assembled record of the `alpha` post. -/
def wAlpha : Obj := mkPost "alpha" [("title", "Alpha"), ("date", "2024-01-01"), ("spoiler", "A")]

/-- The assembled record of the `beta` post. -/
def wBeta : Obj := mkPost "beta" [("title", "Beta"), ("date", "2024-06-01"), ("spoiler", "B")]

/-- A content root whose readdir order is June, unparseable, January, May:
every adjacent comparison under the `getPosts` comparator is negative (the two
NaN comparisons and May-versus-January all yield -1), so the platform sort
sees one strictly descending run covering the whole array and reverses it. -/
def c1fs : FS :=
  { entries := [⟨"a-jun", true⟩, ⟨"b-bad", true⟩, ⟨"c-jan", true⟩, ⟨"d-may", true⟩]
  , files := fun d =>
      if d = "a-jun" then some "---\ntitle: J\ndate: 2024-06-01\nspoiler: sj\n---\nbody j"
      else if d = "b-bad" then some "---\ntitle: N\ndate: not a date\nspoiler: sn\n---\nbody n"
      else if d = "c-jan" then some "---\ntitle: A\ndate: 2024-01-01\nspoiler: sa\n---\nbody a"
      else if d = "d-may" then some "---\ntitle: M\ndate: 2024-05-01\nspoiler: sm\n---\nbody m"
      else none }

/-- The assembled June-dated record of `c1fs`. -/
def c1postJun : Obj := mkPost "a-jun" [("title", "J"), ("date", "2024-06-01"), ("spoiler", "sj")]

/-- The assembled unparseable-dated record of `c1fs`. -/
def c1postNan : Obj := mkPost "b-bad" [("title", "N"), ("date", "not a date"), ("spoiler", "sn")]

/-- The assembled January-dated record of `c1fs`. -/
def c1postJan : Obj := mkPost "c-jan" [("title", "A"), ("date", "2024-01-01"), ("spoiler", "sa")]

/-- The assembled May-dated record of `c1fs`. -/
def c1postMay : Obj := mkPost "d-may" [("title", "M"), ("date", "2024-05-01"), ("spoiler", "sm")]

/-- A content root with three validly dated posts in readdir order January,
June, March, chosen so the platform sort reverses a two-element run and then
binary-inserts the March post. -/
def w3fs : FS :=
  { entries := [⟨"p-jan", true⟩, ⟨"q-jun", true⟩, ⟨"r-mar", true⟩]
  , files := fun d =>
      if d = "p-jan" then some "---\ntitle: PJ\ndate: 2024-01-01\nspoiler: t1\n---\nx"
      else if d = "q-jun" then some "---\ntitle: PU\ndate: 2024-06-01\nspoiler: t2\n---\ny"
      else if d = "r-mar" then some "---\ntitle: PM\ndate: 2024-03-01\nspoiler: t3\n---\nz"
      else none }

/-- The assembled January record of `w3fs`. -/
def w3Jan : Obj := mkPost "p-jan" [("title", "PJ"), ("date", "2024-01-01"), ("spoiler", "t1")]

/-- The assembled June record of `w3fs`. -/
def w3Jun : Obj := mkPost "q-jun" [("title", "PU"), ("date", "2024-06-01"), ("spoiler", "t2")]

/-- The assembled March record of `w3fs`. -/
def w3Mar : Obj := mkPost "r-mar" [("title", "PM"), ("date", "2024-03-01"), ("spoiler", "t3")]

/-- File table shared by the two reorderings of the `c2` content root. -/
def c2files : String → Option String := fun d =>
  if d = "z-bad" then some "---\ntitle: NB\ndate: nope\nspoiler: sb\n---\nb"
  else if d = "a-good" then some "---\ntitle: G\ndate: 2024-01-01\nspoiler: sg\n---\ng"
  else none

/-- The `c2` content root with the invalid-dated directory listed first. -/
def c2fsA : FS := { entries := [⟨"z-bad", true⟩, ⟨"a-good", true⟩], files := c2files }

/-- The `c2` content root with the valid-dated directory listed first. -/
def c2fsB : FS := { entries := [⟨"a-good", true⟩, ⟨"z-bad", true⟩], files := c2files }

/-- The assembled invalid-dated record of the `c2` roots. -/
def c2bad : Obj := mkPost "z-bad" [("title", "NB"), ("date", "nope"), ("spoiler", "sb")]

/-- The assembled valid-dated record of the `c2` roots. -/
def c2good : Obj := mkPost "a-good" [("title", "G"), ("date", "2024-01-01"), ("spoiler", "sg")]

/-- A content root whose single post parses but lacks the required `title`
field. -/
def c3fs : FS :=
  { entries := [⟨"no-title", true⟩]
  , files := fun d =>
      if d = "no-title" then some "---\ndate: 2024-01-01\nspoiler: s\n---\nbody"
      else none }

/-- The record assembled for the titleless post of `c3fs`. -/
def c3post : Obj := mkPost "no-title" [("date", "2024-01-01"), ("spoiler", "s")]

/-- A content root whose single post's front matter carries its own `slug`
key. -/
def c4fs : FS :=
  { entries := [⟨"real-dir", true⟩]
  , files := fun d =>
      if d = "real-dir" then
        some "---\ntitle: T\ndate: 2024-01-01\nspoiler: s\nslug: fake\n---\nbody"
      else none }

/-- The record assembled for the slug-overriding post of `c4fs`. -/
def c4post : Obj :=
  mkPost "real-dir" [("title", "T"), ("date", "2024-01-01"), ("spoiler", "s"), ("slug", "fake")]

/-- A content root in which one directory has no `index.md`. -/
def c8fs : FS :=
  { entries := [⟨"good-dir", true⟩, ⟨"missing-dir", true⟩]
  , files := fun d => if d = "good-dir" then some wfileA else none }

/-- The front matter of the `c10` post, carrying its own `slug` key. -/
def c10data : Obj :=
  [("title", "T"), ("date", "2024-01-01"), ("spoiler", "s"), ("slug", "front-slug")]

/-- A content root demonstrating the spread-order slug override. -/
def c10fs : FS :=
  { entries := [⟨"real-slug", true⟩]
  , files := fun d =>
      if d = "real-slug" then
        some "---\ntitle: T\ndate: 2024-01-01\nspoiler: s\nslug: front-slug\n---\nbody"
      else none }

/-! ### The descending-date relation and general lemmas about the sort -/

/-- Non-increasing publication date: whenever both posts carry parseable dates,
the first post's date is at least the second's.  This is the pairwise relation
the ordering invariant of the spec asserts of the output of `getPosts`. -/
def descRel (a b : Obj) : Prop :=
  ∀ x y, dparse a = some x → dparse b = some y → y ≤ x

lemma jsLt_true_elim {oa ob : Option Int} (h : jsLt oa ob = true) :
    ∃ x y, oa = some x ∧ ob = some y ∧ x < y := by
  cases oa with
  | none => simp [jsLt] at h
  | some x =>
    cases ob with
    | none => simp [jsLt] at h
    | some y =>
      simp only [jsLt, decide_eq_true_eq] at h
      exact ⟨x, y, rfl, rfl, h⟩

lemma jsLt_irrefl (o : Option Int) : jsLt o o = false := by
  cases o with
  | none => rfl
  | some x => simp [jsLt]

lemma descRel_trans {a b c : Obj} (hb : (dparse b).isSome)
    (h1 : descRel a b) (h2 : descRel b c) : descRel a c := by
  intro x z hx hz
  obtain ⟨y, hy⟩ := Option.isSome_iff_exists.mp hb
  exact le_trans (h2 y z hy hz) (h1 x y hx hy)

lemma postCmp_neg_iff {a b : Obj} {x y : Int}
    (ha : dparse a = some x) (hb : dparse b = some y) :
    postCmp a b < 0 ↔ y ≤ x := by
  unfold postCmp
  rw [ha, hb]
  by_cases hxy : x < y
  · simp [jsLt, hxy]
  · simp [jsLt, hxy]
    omega

lemma postCmp_pos_elim {a b : Obj} (h : ¬ postCmp a b < 0) :
    ∃ x y, dparse a = some x ∧ dparse b = some y ∧ x < y := by
  cases hj : jsLt (dparse a) (dparse b) with
  | true => exact jsLt_true_elim hj
  | false =>
    have hm1 : postCmp a b = -1 := by simp [postCmp, hj]
    rw [hm1] at h
    exact absurd (by decide : (-1 : Int) < 0) h

lemma takeDescRun_append (cmp : Obj → Obj → Int) (prev : Obj) (l : List Obj) :
    (takeDescRun cmp prev l).1 ++ (takeDescRun cmp prev l).2 = l := by
  induction l generalizing prev with
  | nil => rfl
  | cons x xs ih =>
    simp only [takeDescRun]
    by_cases h : cmp x prev < 0
    · simp [h, ih x]
    · simp [h]

lemma takeAscRun_append (cmp : Obj → Obj → Int) (prev : Obj) (l : List Obj) :
    (takeAscRun cmp prev l).1 ++ (takeAscRun cmp prev l).2 = l := by
  induction l generalizing prev with
  | nil => rfl
  | cons x xs ih =>
    simp only [takeAscRun]
    by_cases h : cmp x prev < 0
    · simp [h]
    · simp [h, ih x]

lemma mem_takeDescRun {cmp : Obj → Obj → Int} {prev p : Obj} {l : List Obj}
    (hp : p ∈ (takeDescRun cmp prev l).1) : p ∈ l := by
  have h := takeDescRun_append cmp prev l
  rw [← h]
  exact List.mem_append_left _ hp

lemma mem_takeAscRun {cmp : Obj → Obj → Int} {prev p : Obj} {l : List Obj}
    (hp : p ∈ (takeAscRun cmp prev l).1) : p ∈ l := by
  have h := takeAscRun_append cmp prev l
  rw [← h]
  exact List.mem_append_left _ hp

lemma makeRun_perm (cmp : Obj → Obj → Int) (l : List Obj) :
    ((makeRun cmp l).1 ++ (makeRun cmp l).2).Perm l := by
  rcases l with _ | ⟨a, _ | ⟨b, rest⟩⟩
  · simp [makeRun]
  · simp [makeRun]
  · simp only [makeRun]
    by_cases h : cmp b a < 0
    · rw [if_pos h]
      have h1 : (((a :: b :: (takeDescRun cmp b rest).1).reverse) ++ (takeDescRun cmp b rest).2).Perm
          ((a :: b :: (takeDescRun cmp b rest).1) ++ (takeDescRun cmp b rest).2) :=
        (List.reverse_perm _).append_right _
      have h2 : (a :: b :: (takeDescRun cmp b rest).1) ++ (takeDescRun cmp b rest).2
          = a :: b :: rest := by
        simp [takeDescRun_append]
      rw [h2] at h1
      exact h1
    · rw [if_neg h]
      have h2 : (a :: b :: (takeAscRun cmp b rest).1) ++ (takeAscRun cmp b rest).2
          = a :: b :: rest := by
        simp [takeAscRun_append]
      rw [h2]

lemma perm_take_cons_drop (x : Obj) : ∀ (pos : Nat) (l : List Obj),
    (l.take pos ++ x :: l.drop pos).Perm (x :: l) := by
  intro pos
  induction pos with
  | zero => intro l; simp
  | succ n ih =>
    intro l
    cases l with
    | nil => simp
    | cons y ys =>
      simp only [List.take_succ_cons, List.drop_succ_cons, List.cons_append]
      exact ((ih ys).cons y).trans (List.Perm.swap x y ys)

lemma binInsert_perm (cmp : Obj → Obj → Int) (sorted : List Obj) (pivot : Obj) :
    (binInsert cmp sorted pivot).Perm (pivot :: sorted) := by
  unfold binInsert
  exact perm_take_cons_drop pivot _ sorted

lemma foldl_binInsert_perm (cmp : Obj → Obj → Int) :
    ∀ (rest run : List Obj), (rest.foldl (binInsert cmp) run).Perm (run ++ rest) := by
  intro rest
  induction rest with
  | nil => intro run; simp
  | cons r rs ih =>
    intro run
    simp only [List.foldl]
    have h1 := ih (binInsert cmp run r)
    have h2 : (binInsert cmp run r ++ rs).Perm ((r :: run) ++ rs) :=
      (binInsert_perm cmp run r).append_right rs
    have h3 : ((r :: run) ++ rs).Perm (run ++ r :: rs) := by
      simp only [List.cons_append]
      exact List.perm_middle.symm
    exact (h1.trans h2).trans h3

lemma jsSort_perm (cmp : Obj → Obj → Int) (l : List Obj) : (jsSort cmp l).Perm l := by
  unfold jsSort
  exact (foldl_binInsert_perm cmp _ _).trans (makeRun_perm cmp l)

lemma chain_takeDescRun (prev : Obj) (l : List Obj)
    (hprev : (dparse prev).isSome) (hl : ∀ p ∈ l, (dparse p).isSome) :
    List.Chain (fun u v => descRel v u) prev (takeDescRun postCmp prev l).1 := by
  induction l generalizing prev with
  | nil => exact List.Chain.nil
  | cons x xs ih =>
    simp only [takeDescRun]
    by_cases h : postCmp x prev < 0
    · rw [if_pos h]
      have hx : (dparse x).isSome := hl x (by simp)
      refine List.Chain.cons ?_ (ih x hx (fun p hp => hl p (by simp [hp])))
      obtain ⟨px, hpx⟩ := Option.isSome_iff_exists.mp hx
      obtain ⟨pp, hpp⟩ := Option.isSome_iff_exists.mp hprev
      intro u v hu hv
      rw [hpx] at hu
      cases hu
      rw [hpp] at hv
      cases hv
      exact (postCmp_neg_iff hpx hpp).mp h
    · rw [if_neg h]
      exact List.Chain.nil

lemma chain_takeAscRun (prev : Obj) (l : List Obj) :
    List.Chain descRel prev (takeAscRun postCmp prev l).1 := by
  induction l generalizing prev with
  | nil => exact List.Chain.nil
  | cons x xs ih =>
    simp only [takeAscRun]
    by_cases h : postCmp x prev < 0
    · rw [if_pos h]
      exact List.Chain.nil
    · rw [if_neg h]
      refine List.Chain.cons ?_ (ih x)
      obtain ⟨px, pv, hpx, hpv, hlt⟩ := postCmp_pos_elim h
      intro u v hu hv
      rw [hpv] at hu
      cases hu
      rw [hpx] at hv
      cases hv
      exact le_of_lt hlt

lemma chain'_pairwise_descRel : ∀ (l : List Obj), (∀ p ∈ l, (dparse p).isSome) →
    l.Chain' descRel → l.Pairwise descRel := by
  intro l
  induction l with
  | nil => intro _ _; exact List.Pairwise.nil
  | cons a l ih =>
    intro hall hch
    cases l with
    | nil => simp
    | cons b m =>
      have hab : descRel a b := (List.chain'_cons.mp hch).1
      have hp : (b :: m).Pairwise descRel :=
        ih (fun p hp => hall p (by simp [hp])) (List.chain'_cons.mp hch).2
      refine List.pairwise_cons.mpr ⟨?_, hp⟩
      intro z hz
      rcases List.mem_cons.mp hz with rfl | hz2
      · exact hab
      · have hb : (dparse b).isSome := hall b (by simp)
        exact descRel_trans hb hab ((List.pairwise_cons.mp hp).1 z hz2)

lemma pairwise_makeRun (l : List Obj) (hall : ∀ p ∈ l, (dparse p).isSome) :
    (makeRun postCmp l).1.Pairwise descRel := by
  rcases l with _ | ⟨a, _ | ⟨b, rest⟩⟩
  · simp [makeRun]
  · simp [makeRun]
  · have ha : (dparse a).isSome := hall a (by simp)
    have hb : (dparse b).isSome := hall b (by simp)
    have hrest : ∀ p ∈ rest, (dparse p).isSome := fun p hp => hall p (by simp [hp])
    simp only [makeRun]
    by_cases h : postCmp b a < 0
    · rw [if_pos h]
      have hchain : List.Chain (fun u v => descRel v u) a
          (b :: (takeDescRun postCmp b rest).1) := by
        refine List.Chain.cons ?_ (chain_takeDescRun b rest hb hrest)
        obtain ⟨pb, hpb⟩ := Option.isSome_iff_exists.mp hb
        obtain ⟨pa, hpa⟩ := Option.isSome_iff_exists.mp ha
        intro u v hu hv
        rw [hpb] at hu
        cases hu
        rw [hpa] at hv
        cases hv
        exact (postCmp_neg_iff hpb hpa).mp h
      have hcrev : List.Chain' descRel ((a :: b :: (takeDescRun postCmp b rest).1).reverse) := by
        rw [List.chain'_reverse]
        exact hchain
      refine chain'_pairwise_descRel _ ?_ hcrev
      intro p hp
      rw [List.mem_reverse] at hp
      simp only [List.mem_cons] at hp
      rcases hp with rfl | rfl | hp3
      · exact ha
      · exact hb
      · exact hrest p (mem_takeDescRun hp3)
    · rw [if_neg h]
      have hchain : List.Chain descRel a (b :: (takeAscRun postCmp b rest).1) := by
        refine List.Chain.cons ?_ (chain_takeAscRun b rest)
        obtain ⟨x0, y0, hx0, hy0, hlt⟩ := postCmp_pos_elim h
        intro u v hu hv
        rw [hy0] at hu
        cases hu
        rw [hx0] at hv
        cases hv
        exact le_of_lt hlt
      refine chain'_pairwise_descRel _ ?_ hchain
      intro p hp
      simp only [List.mem_cons] at hp
      rcases hp with rfl | rfl | hp3
      · exact ha
      · exact hb
      · exact hrest p (mem_takeAscRun hp3)

lemma binSearchGo_spec (pivot : Obj) (l : List Obj) :
    ∀ (fuel left right : Nat), left ≤ right → right ≤ l.length → right - left ≤ fuel →
    (∀ i, i < left → ¬ postCmp pivot (l.getD i pivot) < 0) →
    (∀ i, right ≤ i → i < l.length → postCmp pivot (l.getD i pivot) < 0) →
    (∀ i j, i ≤ j → j < l.length → postCmp pivot (l.getD i pivot) < 0 →
      postCmp pivot (l.getD j pivot) < 0) →
    binSearchGo postCmp pivot l fuel left right ≤ l.length ∧
    (∀ i, i < binSearchGo postCmp pivot l fuel left right →
      ¬ postCmp pivot (l.getD i pivot) < 0) ∧
    (∀ i, binSearchGo postCmp pivot l fuel left right ≤ i → i < l.length →
      postCmp pivot (l.getD i pivot) < 0) := by
  intro fuel
  induction fuel with
  | zero =>
    intro left right h1 h2 h3 hL hR _hmono
    have hlr : left = right := by omega
    subst hlr
    simp only [binSearchGo]
    exact ⟨h2, hL, hR⟩
  | succ fuel ih =>
    intro left right h1 h2 h3 hL hR hmono
    by_cases hlr : left < right
    · have hml : left ≤ left + (right - left) / 2 := by omega
      have hmr : left + (right - left) / 2 < right := by omega
      by_cases hc : postCmp pivot (l.getD (left + (right - left) / 2) pivot) < 0
      · have heq : binSearchGo postCmp pivot l (fuel + 1) left right =
            binSearchGo postCmp pivot l fuel left (left + (right - left) / 2) := by
          simp only [binSearchGo, if_pos hlr, if_pos hc]
        rw [heq]
        refine ih left (left + (right - left) / 2) hml (by omega) (by omega) hL ?_ hmono
        intro i hi1 hi2
        exact hmono _ i hi1 hi2 hc
      · have heq : binSearchGo postCmp pivot l (fuel + 1) left right =
            binSearchGo postCmp pivot l fuel (left + (right - left) / 2 + 1) right := by
          simp only [binSearchGo, if_pos hlr, if_neg hc]
        rw [heq]
        refine ih (left + (right - left) / 2 + 1) right (by omega) h2 (by omega) ?_ hR hmono
        intro i hi hQ
        exact hc (hmono i _ (by omega) (by omega) hQ)
    · have hleq : left = right := by omega
      subst hleq
      have heq : binSearchGo postCmp pivot l (fuel + 1) left left = left := by
        simp only [binSearchGo, if_neg hlr]
      rw [heq]
      exact ⟨h2, hL, hR⟩

lemma pairwise_binInsert (l : List Obj) (pivot : Obj)
    (hl : ∀ p ∈ l, (dparse p).isSome) (hpiv : (dparse pivot).isSome)
    (hs : l.Pairwise descRel) :
    (binInsert postCmp l pivot).Pairwise descRel := by
  obtain ⟨pv, hpv⟩ := Option.isSome_iff_exists.mp hpiv
  have hparse : ∀ i, i < l.length → ∃ xi, dparse (l.getD i pivot) = some xi := by
    intro i hi
    rw [List.getD_eq_getElem l pivot hi]
    exact Option.isSome_iff_exists.mp (hl _ (l.getElem_mem hi))
  have hsorted : ∀ i j, i < l.length → j < l.length → i < j →
      ∀ x y, dparse (l.getD i pivot) = some x → dparse (l.getD j pivot) = some y → y ≤ x := by
    intro i j hi hj hij x y hx hy
    have hd := List.pairwise_iff_getElem.mp hs i j hi hj hij
    rw [List.getD_eq_getElem l pivot hi] at hx
    rw [List.getD_eq_getElem l pivot hj] at hy
    exact hd x y hx hy
  have hmono : ∀ i j, i ≤ j → j < l.length → postCmp pivot (l.getD i pivot) < 0 →
      postCmp pivot (l.getD j pivot) < 0 := by
    intro i j hij hj hQ
    have hi : i < l.length := Nat.lt_of_le_of_lt hij hj
    obtain ⟨xi, hxi⟩ := hparse i hi
    obtain ⟨xj, hxj⟩ := hparse j hj
    have h1 : xi ≤ pv := (postCmp_neg_iff hpv hxi).mp hQ
    rcases Nat.lt_or_ge i j with hlt | hge
    · have h2 : xj ≤ xi := hsorted i j hi hj hlt xi xj hxi hxj
      exact (postCmp_neg_iff hpv hxj).mpr (le_trans h2 h1)
    · have hij2 : i = j := by omega
      subst hij2
      exact hQ
  obtain ⟨hposle, hleft, hright⟩ := binSearchGo_spec pivot l l.length 0 l.length
    (Nat.zero_le _) (le_refl _) (by omega)
    (fun i hi => absurd hi (Nat.not_lt_zero i))
    (fun i h1 h2 => absurd h2 (Nat.not_lt.mpr h1)) hmono
  unfold binInsert
  rw [List.pairwise_append]
  refine ⟨hs.sublist (List.take_sublist _ l), ?_, ?_⟩
  · rw [List.pairwise_cons]
    refine ⟨?_, hs.sublist (List.drop_sublist _ l)⟩
    intro b hb
    obtain ⟨k, hk, hbk⟩ := List.mem_iff_getElem.mp hb
    have hpk : binSearchGo postCmp pivot l l.length 0 l.length + k < l.length := by
      rw [List.length_drop] at hk
      omega
    have hb3 : b = l.getD (binSearchGo postCmp pivot l l.length 0 l.length + k) pivot := by
      rw [List.getD_eq_getElem l pivot hpk, ← hbk]
      exact List.getElem_drop l
    obtain ⟨y, hy⟩ := hparse _ hpk
    have hyp : y ≤ pv := (postCmp_neg_iff hpv hy).mp (hright _ (by omega) hpk)
    intro u v hu hv
    rw [hpv] at hu
    cases hu
    rw [hb3, hy] at hv
    cases hv
    exact hyp
  · intro a ha b hb
    obtain ⟨i, hi, hai⟩ := List.mem_iff_getElem.mp ha
    rw [List.length_take] at hi
    have hi2 := Nat.lt_min.mp hi
    have hai2 : a = l.getD i pivot := by
      rw [List.getD_eq_getElem l pivot hi2.2, ← hai]
      exact List.getElem_take l
    rcases List.mem_cons.mp hb with rfl | hb2
    · have hnq := hleft i hi2.1
      obtain ⟨x, y, hx, hy, hxy⟩ := postCmp_pos_elim hnq
      intro u v hu hv
      rw [hai2, hy] at hu
      cases hu
      rw [hx] at hv
      cases hv
      exact le_of_lt hxy
    · obtain ⟨k, hk, hbk⟩ := List.mem_iff_getElem.mp hb2
      have hpk : binSearchGo postCmp pivot l l.length 0 l.length + k < l.length := by
        rw [List.length_drop] at hk
        omega
      have hb3 : b = l.getD (binSearchGo postCmp pivot l l.length 0 l.length + k) pivot := by
        rw [List.getD_eq_getElem l pivot hpk, ← hbk]
        exact List.getElem_drop l
      have hij : i < binSearchGo postCmp pivot l l.length 0 l.length + k := by
        have := hi2.1
        omega
      obtain ⟨xi, hxi⟩ := hparse i hi2.2
      obtain ⟨xk, hxk⟩ := hparse _ hpk
      intro u v hu hv
      rw [hai2, hxi] at hu
      cases hu
      rw [hb3, hxk] at hv
      cases hv
      exact hsorted i _ hi2.2 hpk hij xi xk hxi hxk

lemma pairwise_foldl_binInsert : ∀ (rest run : List Obj),
    (∀ p ∈ run, (dparse p).isSome) → (∀ p ∈ rest, (dparse p).isSome) →
    run.Pairwise descRel →
    (rest.foldl (binInsert postCmp) run).Pairwise descRel := by
  intro rest
  induction rest with
  | nil => intro run _ _ hp; exact hp
  | cons r rs ih =>
    intro run h1 h2 hp
    simp only [List.foldl]
    refine ih (binInsert postCmp run r) ?_ (fun p hp2 => h2 p (by simp [hp2])) ?_
    · intro p hp2
      have hmem := (binInsert_perm postCmp run r).mem_iff.mp hp2
      rcases List.mem_cons.mp hmem with rfl | h3
      · exact h2 p (by simp)
      · exact h1 p h3
    · exact pairwise_binInsert run r h1 (h2 r (by simp)) hp

lemma pairwise_jsSort (l : List Obj) (hl : ∀ y ∈ l, (dparse y).isSome) :
    (jsSort postCmp l).Pairwise descRel := by
  unfold jsSort
  have hmem : ∀ p, p ∈ (makeRun postCmp l).1 ∨ p ∈ (makeRun postCmp l).2 → p ∈ l := by
    intro p hp
    exact (makeRun_perm postCmp l).mem_iff.mp (List.mem_append.mpr hp)
  refine pairwise_foldl_binInsert _ _ ?_ ?_ (pairwise_makeRun l hl)
  · intro p hp
    exact hl p (hmem p (Or.inl hp))
  · intro p hp
    exact hl p (hmem p (Or.inr hp))

/-! ### Inversion and success lemmas for the getPosts pipeline -/

lemma getPosts_ok_elim {fs : FS} {posts : List Obj} (h : getPosts fs = Except.ok posts) :
    ∃ cs l, readAll fs (dirsOf fs) = Except.ok cs ∧
      assemble (dirsOf fs) cs = Except.ok l ∧ posts = jsSort postCmp l := by
  unfold getPosts at h
  cases hr : readAll fs (dirsOf fs) with
  | error e => rw [hr] at h; simp at h
  | ok cs =>
    rw [hr] at h
    dsimp only at h
    cases ha : assemble (dirsOf fs) cs with
    | error e => rw [ha] at h; simp at h
    | ok l =>
      rw [ha] at h
      simp only [Except.ok.injEq] at h
      exact ⟨cs, l, rfl, ha, h.symm⟩

lemma pipeline_ok (fs : FS) (dirs : List String)
    (h : ∀ d ∈ dirs, ∃ c data body, fs.files d = some c ∧ matter c = Except.ok (data, body)) :
    ∃ cs posts, readAll fs dirs = Except.ok cs ∧ assemble dirs cs = Except.ok posts ∧
      List.Forall₂ (fun d p => ∃ c data body, fs.files d = some c ∧
        matter c = Except.ok (data, body) ∧ p = mkPost d data) dirs posts := by
  induction dirs with
  | nil => exact ⟨[], [], rfl, rfl, List.Forall₂.nil⟩
  | cons a rest ih =>
    obtain ⟨c, data, body, hfa, hma⟩ := h a (List.mem_cons_self a rest)
    obtain ⟨cs, posts, hrr, har, hfar⟩ := ih (fun d hd => h d (List.mem_cons_of_mem a hd))
    refine ⟨c :: cs, mkPost a data :: posts, ?_, ?_,
      List.Forall₂.cons ⟨c, data, body, hfa, hma, rfl⟩ hfar⟩
    · simp only [readAll] at hrr
      simp only [readAll, mapE, hfa, hrr]
    · simp only [assemble, List.zip] at har
      simp only [assemble, List.zip, List.zipWith, mapE, hma, har]

lemma forall2_slugs {fs : FS} {dirs : List String} {posts : List Obj}
    (hf : List.Forall₂ (fun d p => ∃ c data body, fs.files d = some c ∧
      matter c = Except.ok (data, body) ∧ p = mkPost d data) dirs posts)
    (h : ∀ d ∈ dirs, ∃ c data body, fs.files d = some c ∧
      matter c = Except.ok (data, body) ∧ objGet data "slug" = none) :
    posts.map (fun p => objGet p "slug") = dirs.map some := by
  induction hf with
  | nil => rfl
  | @cons a p rest prest hdp hrest ih =>
    obtain ⟨c, data, body, hfa, hma, rfl⟩ := hdp
    obtain ⟨c2, data2, body2, hfa2, hma2, hslug⟩ := h a (List.mem_cons_self a rest)
    rw [hfa] at hfa2
    injection hfa2 with hc
    subst hc
    rw [hma] at hma2
    injection hma2 with hpair
    injection hpair with hdata hbody
    subst hdata
    simp only [List.map]
    rw [ih (fun d hd => h d (List.mem_cons_of_mem a hd))]
    have : objGet (mkPost a data) "slug" = some a := by
      simp [mkPost, objGet, hslug]
    rw [this]

lemma readAll_error_of_missing {fs : FS} {dirs : List String} {d : String}
    (hd : d ∈ dirs) (hf : fs.files d = none) :
    ∃ e, readAll fs dirs = Except.error e := by
  induction dirs with
  | nil => cases hd
  | cons a rest ih =>
    cases hfa : fs.files a with
    | none =>
      exact ⟨"ENOENT: no such file ./public/" ++ a ++ "/index.md",
        by simp [readAll, mapE, hfa]⟩
    | some c =>
      have hd2 : d ∈ rest := by
        rcases List.mem_cons.mp hd with rfl | h2
        · rw [hf] at hfa
          cases hfa
        · exact h2
      obtain ⟨e, he⟩ := ih hd2
      refine ⟨e, ?_⟩
      simp only [readAll] at he
      simp only [readAll, mapE, hfa, he]

lemma foldl_addItem (posts : List Obj) (f : Feed) :
    posts.foldl (fun acc post => acc.addItem (mkItem post)) f =
      { options := f.options, items := f.items ++ posts.map mkItem } := by
  induction posts generalizing f with
  | nil => simp
  | cons p ps ih =>
    simp only [List.foldl, List.map]
    rw [ih]
    simp [Feed.addItem]

lemma generateFeed_ok {now : Int} {fs : FS} {posts : List Obj}
    (h : getPosts fs = Except.ok posts) :
    generateFeed now fs = Except.ok { options := feedOptions, items := posts.map mkItem } := by
  unfold generateFeed
  rw [h]
  dsimp only
  rw [foldl_addItem]
  rfl

/-! ### Claim theorems -/

/-- C1 (counterexample): the descending-date invariant over the parseably
dated posts of a `getPosts` result does not hold universally.  On `c1fs`
(readdir order June, unparseable, January, May) every adjacent comparison is
-1, so the platform sort sees one strictly descending run covering the whole
array and reverses it, returning May, January, NaN, June: the January post
precedes the June post although both dates parse. -/
theorem c1_counterexample :
    getPosts c1fs = Except.ok [c1postMay, c1postJan, c1postNan, c1postJun] ∧
    dparse c1postJan = some 20240101 ∧
    dparse c1postJun = some 20240601 ∧
    ¬ ([c1postMay, c1postJan, c1postNan, c1postJun].Pairwise descRel) := by
  refine ⟨rfl, rfl, rfl, ?_⟩
  intro hp
  have h1 := (List.pairwise_cons.mp hp).2
  have h2 := (List.pairwise_cons.mp h1).1 c1postJun (by simp)
  have h3 := h2 20240101 20240601 rfl rfl
  exact absurd h3 (by decide)

/-- C1 (amended): if every post in the list returned by `getPosts` has a
parseable date, then the returned list is ordered non-increasingly by
publication date: whenever post A precedes post B, `A.date >= B.date` under
the calendar-date order. -/
theorem c1_sorted_of_all_parseable (fs : FS) (posts : List Obj)
    (h : getPosts fs = Except.ok posts)
    (hp : ∀ p ∈ posts, (dparse p).isSome) :
    posts.Pairwise descRel := by
  obtain ⟨cs, l, hr, ha, rfl⟩ := getPosts_ok_elim h
  refine pairwise_jsSort l ?_
  intro y hy
  exact hp y ((jsSort_perm postCmp l).mem_iff.mpr hy)

/-- Witness for C1 (amended) at the concrete root `w3fs`, whose sort both
reverses a run and binary-inserts an element. -/
theorem c1_sorted_of_all_parseable_witness :
    ([w3Jun, w3Mar, w3Jan] : List Obj).Pairwise descRel :=
  c1_sorted_of_all_parseable w3fs [w3Jun, w3Mar, w3Jan] rfl (by decide)

/-- C2 (counterexample): an invalid-dated post does not receive a defined,
consistent position relative to validly dated posts.  The two roots `c2fsA`
and `c2fsB` hold the same two posts and differ only in readdir order; in each
case the single comparison involving the NaN sentinel returns -1, so the
platform sort treats the pair as a descending run and reverses it, placing the
NaN-dated post after the valid post for one root and before it for the
other. -/
theorem c2_counterexample :
    getPosts c2fsA = Except.ok [c2good, c2bad] ∧
    getPosts c2fsB = Except.ok [c2bad, c2good] ∧
    dparse c2bad = none ∧
    dparse c2good = some 20240101 :=
  ⟨rfl, rfl, rfl, rfl⟩

/-- C2 (amended): a missing or unparseable date is mapped to the single NaN
sentinel (`none`), every comparison against the sentinel yields -1, the
comparator is total with values 1 and -1 only, and the sort always completes
with a permutation of its input — but the sentinel's placement is governed by
input order rather than by a defined position (see the counterexample). -/
theorem c2_nan_sentinel_total :
    (∀ l : List Obj, (jsSort postCmp l).Perm l) ∧
    (∀ a b : Obj, postCmp a b = 1 ∨ postCmp a b = -1) ∧
    (∀ a b : Obj, dparse a = none ∨ dparse b = none → postCmp a b = -1) := by
  refine ⟨fun l => jsSort_perm postCmp l, ?_, ?_⟩
  · intro a b
    cases hj : jsLt (dparse a) (dparse b) with
    | true => exact Or.inl (by simp [postCmp, hj])
    | false => exact Or.inr (by simp [postCmp, hj])
  · intro a b h
    have hj : jsLt (dparse a) (dparse b) = false := by
      rcases h with h | h <;> rw [h]
      · rfl
      · cases dparse a <;> rfl
    simp [postCmp, hj]

/-- Witness for C2 (amended): the sentinel comparison at the concrete
NaN-dated post of the `c2` roots. -/
theorem c2_nan_sentinel_total_witness : postCmp c2bad c2good = -1 :=
  c2_nan_sentinel_total.2.2 c2bad c2good (Or.inl rfl)

/-- C3 (counterexample): a post whose markdown parses but whose front matter
lacks the required `title` field does not make `getPosts` fail; the collection
is returned with a record whose `title` property is absent. -/
theorem c3_counterexample :
    getPosts c3fs = Except.ok [c3post] ∧ objGet c3post "title" = none :=
  ⟨rfl, rfl⟩

/-- C3 (amended): `getPosts` performs no required-field validation.  Whenever
every post directory has a readable markdown file whose front matter parses —
regardless of which fields that front matter contains — `getPosts` succeeds
and returns one record per directory. -/
theorem c3_no_required_field_validation (fs : FS)
    (h : ∀ d ∈ dirsOf fs, ∃ c data body,
      fs.files d = some c ∧ matter c = Except.ok (data, body)) :
    ∃ posts, getPosts fs = Except.ok posts ∧ posts.length = (dirsOf fs).length := by
  obtain ⟨cs, l, hr, ha, hf⟩ := pipeline_ok fs (dirsOf fs) h
  refine ⟨jsSort postCmp l, ?_, ?_⟩
  · simp [getPosts, hr, ha]
  · calc (jsSort postCmp l).length = l.length := (jsSort_perm postCmp l).length_eq
      _ = (dirsOf fs).length := hf.length_eq.symm

/-- Witness for C3 (amended) at the concrete root `c3fs`, whose only post has
no `title` field. -/
theorem c3_no_required_field_validation_witness :
    ∃ posts, getPosts c3fs = Except.ok posts ∧ posts.length = (dirsOf c3fs).length := by
  refine c3_no_required_field_validation c3fs ?_
  intro d hd
  simp only [dirsOf, c3fs, List.filter, List.map, List.mem_singleton] at hd
  subst hd
  exact ⟨"---\ndate: 2024-01-01\nspoiler: s\n---\nbody",
    [("date", "2024-01-01"), ("spoiler", "s")], "body", rfl, rfl⟩

/-- C4 (counterexample): the slug of a returned record does not always equal
the source directory name.  On `c4fs` the single directory is named
`real-dir`, yet the returned record's `slug` property is the front-matter
value `fake`, because the parsed metadata is spread after the
directory-derived slug. -/
theorem c4_counterexample :
    getPosts c4fs = Except.ok [c4post] ∧
    dirsOf c4fs = ["real-dir"] ∧
    objGet c4post "slug" = some "fake" ∧
    objGet c4post "slug" ≠ some "real-dir" :=
  ⟨rfl, rfl, rfl, by decide⟩

/-- C4 (amended): for a root whose post directories all hold a readable,
parseable markdown file whose front matter does not itself define a `slug`
key, `getPosts` returns exactly one record per immediate subdirectory
(non-directory entries excluded), and the multiset of returned `slug`
properties is exactly the multiset of directory names. -/
theorem c4_count_and_slugs (fs : FS)
    (h : ∀ d ∈ dirsOf fs, ∃ c data body, fs.files d = some c ∧
      matter c = Except.ok (data, body) ∧ objGet data "slug" = none) :
    ∃ posts, getPosts fs = Except.ok posts ∧
      posts.length = (dirsOf fs).length ∧
      (posts.map (fun p => objGet p "slug")).Perm ((dirsOf fs).map some) := by
  obtain ⟨cs, l, hr, ha, hf⟩ := pipeline_ok fs (dirsOf fs)
    (fun d hd => (h d hd).imp (fun c hc => hc.imp (fun data hdata =>
      hdata.imp (fun body hbody => ⟨hbody.1, hbody.2.1⟩))))
  refine ⟨jsSort postCmp l, by simp [getPosts, hr, ha], ?_, ?_⟩
  · calc (jsSort postCmp l).length = l.length := (jsSort_perm postCmp l).length_eq
      _ = (dirsOf fs).length := hf.length_eq.symm
  · have hmap := forall2_slugs hf h
    have hperm := (jsSort_perm postCmp l).map (fun p => objGet p "slug")
    rw [hmap] at hperm
    exact hperm

/-- Witness for C4 (amended) at the concrete root `wfs`. -/
theorem c4_count_and_slugs_witness :
    ∃ posts, getPosts wfs = Except.ok posts ∧
      posts.length = (dirsOf wfs).length ∧
      (posts.map (fun p => objGet p "slug")).Perm ((dirsOf wfs).map some) := by
  refine c4_count_and_slugs wfs ?_
  intro d hd
  simp only [dirsOf, wfs, List.filter, List.map, List.mem_cons,
    List.mem_singleton, List.not_mem_nil, or_false] at hd
  rcases hd with rfl | rfl
  · exact ⟨wfileA, [("title", "Alpha"), ("date", "2024-01-01"), ("spoiler", "A")],
      "Hello", rfl, rfl, rfl⟩
  · exact ⟨wfileB, [("title", "Beta"), ("date", "2024-06-01"), ("spoiler", "B")],
      "World", rfl, rfl, rfl⟩

/-- C5: the feed produced by `generateFeed` contains exactly one entry per
post, in exactly the input list order — no re-sorting, filtering, or
duplication. -/
theorem c5_feed_matches_posts (now : Int) (fs : FS) (posts : List Obj)
    (h : getPosts fs = Except.ok posts) :
    ∃ feed, generateFeed now fs = Except.ok feed ∧
      feed.items.length = posts.length ∧
      feed.items = posts.map mkItem :=
  ⟨{ options := feedOptions, items := posts.map mkItem },
    generateFeed_ok h, by simp, rfl⟩

/-- Witness for C5 at the concrete root `wfs`. -/
theorem c5_feed_matches_posts_witness :
    ∃ feed, generateFeed 0 wfs = Except.ok feed ∧
      feed.items.length = ([wBeta, wAlpha] : List Obj).length ∧
      feed.items = ([wBeta, wAlpha] : List Obj).map mkItem :=
  c5_feed_matches_posts 0 wfs [wBeta, wAlpha] rfl

lemma forall2_mkItem (posts : List Obj) :
    List.Forall₂ (fun p it =>
      it.id = site_url ++ slugStr p ++ "/" ∧
      it.link = site_url ++ slugStr p ++ "/" ∧
      it.title = objGet p "title" ∧
      it.description = objGet p "spoiler" ∧
      it.date = dparse p) posts (posts.map mkItem) := by
  induction posts with
  | nil => exact List.Forall₂.nil
  | cons p ps ih => exact List.Forall₂.cons ⟨rfl, rfl, rfl, rfl, rfl⟩ ih

/-- C6: every feed entry's `id` and `link` are exactly the site URL followed
by the post's slug and a trailing slash, its `title` is the post's title, its
`description` is the post's spoiler, and its `date` derives from the post's
own date. -/
theorem c6_entry_fields (now : Int) (fs : FS) (posts : List Obj) (feed : Feed)
    (h1 : getPosts fs = Except.ok posts)
    (h2 : generateFeed now fs = Except.ok feed) :
    List.Forall₂ (fun p it =>
      it.id = site_url ++ slugStr p ++ "/" ∧
      it.link = site_url ++ slugStr p ++ "/" ∧
      it.title = objGet p "title" ∧
      it.description = objGet p "spoiler" ∧
      it.date = dparse p) posts feed.items := by
  rw [generateFeed_ok h1] at h2
  injection h2 with h3
  rw [← h3]
  exact forall2_mkItem posts

/-- Witness for C6 at the concrete root `wfs`. -/
theorem c6_entry_fields_witness :
    List.Forall₂ (fun p it =>
      it.id = site_url ++ slugStr p ++ "/" ∧
      it.link = site_url ++ slugStr p ++ "/" ∧
      it.title = objGet p "title" ∧
      it.description = objGet p "spoiler" ∧
      it.date = dparse p) [wBeta, wAlpha]
      (Feed.mk feedOptions [mkItem wBeta, mkItem wAlpha]).items :=
  c6_entry_fields 0 wfs [wBeta, wAlpha] (Feed.mk feedOptions [mkItem wBeta, mkItem wAlpha])
    rfl rfl

/-- C7: feed generation is deterministic.  `generateFeed` is a pure function
of the post collection, and its result does not depend on the ambient clock —
the one source of nondeterminism available to the feed object construction —
so two runs over the same content produce identical feed objects, whose only
embedded dates are the posts' own. -/
theorem c7_deterministic (now₁ now₂ : Int) (fs : FS) :
    generateFeed now₁ fs = generateFeed now₂ fs := rfl

/-- C8: if any post directory lacks its `index.md`, `getPosts` fails as a
whole: it returns an error rather than a partial collection. -/
theorem c8_missing_file_fails (fs : FS) (d : String)
    (hd : d ∈ dirsOf fs) (hf : fs.files d = none) :
    ∃ e, getPosts fs = Except.error e := by
  obtain ⟨e, he⟩ := readAll_error_of_missing hd hf
  exact ⟨e, by simp [getPosts, he]⟩

/-- Witness for C8 at the concrete root `c8fs`, whose second directory has no
markdown file. -/
theorem c8_missing_file_fails_witness : ∃ e, getPosts c8fs = Except.error e :=
  c8_missing_file_fails c8fs "missing-dir" (by decide) rfl

/-- C9: the sort comparator never returns 0 — it returns 1 exactly when the
first post's parsed date is a time value strictly less than the second's and
-1 otherwise; in particular, when the two parsed dates are equal (including
the case where both are the NaN sentinel) it returns -1 for both argument
orders, so it is not antisymmetric. -/
theorem c9_comparator (a b : Obj) :
    (postCmp a b = 1 ∨ postCmp a b = -1) ∧
    (jsLt (dparse a) (dparse b) = true → postCmp a b = 1) ∧
    (jsLt (dparse a) (dparse b) = false → postCmp a b = -1) ∧
    (dparse a = dparse b → postCmp a b = -1 ∧ postCmp b a = -1) := by
  refine ⟨?_, ?_, ?_, ?_⟩
  · cases hj : jsLt (dparse a) (dparse b) with
    | true => exact Or.inl (by simp [postCmp, hj])
    | false => exact Or.inr (by simp [postCmp, hj])
  · intro hj
    simp [postCmp, hj]
  · intro hj
    simp [postCmp, hj]
  · intro h
    constructor
    · rw [postCmp, h, jsLt_irrefl]
      rfl
    · rw [postCmp, h, jsLt_irrefl]
      rfl

/-- Two posts with equal date strings, used to instantiate C9. -/
def c9a : Obj := [("title", "A"), ("date", "2024-03-03")]

/-- Second post with the same date string as `c9a`. -/
def c9b : Obj := [("title", "B"), ("date", "2024-03-03")]

/-- Witness for C9: two equal-dated posts compare -1 in both orders. -/
theorem c9_comparator_witness : postCmp c9a c9b = -1 ∧ postCmp c9b c9a = -1 :=
  (c9_comparator c9a c9b).2.2.2 rfl

/-- C10: when a post's front matter itself defines a `slug` key, the record
returned by `getPosts` carries the front-matter value as its slug, because the
parsed metadata is spread after the directory-derived slug when the record is
assembled.  Shown in general for the record assembly, and end to end on the
concrete root `c10fs`. -/
theorem c10_front_matter_slug_overrides :
    (∀ slug data v, objGet data "slug" = some v →
      objGet (mkPost slug data) "slug" = some v) ∧
    getPosts c10fs = Except.ok [mkPost "real-slug" c10data] ∧
    objGet (mkPost "real-slug" c10data) "slug" = some "front-slug" := by
  refine ⟨?_, rfl, rfl⟩
  intro slug data v h
  simp [mkPost, objGet, h]

/-- Witness for C10: the general override law applied at a concrete record. -/
theorem c10_front_matter_slug_overrides_witness :
    objGet (mkPost "dir" [("slug", "fm")]) "slug" = some "fm" :=
  c10_front_matter_slug_overrides.1 "dir" [("slug", "fm")] "fm" rfl

end Blog
